import Mathlib

/-!
# Verification of the ureflib/romlib patch and structure layer

Shallow embedding of `src/romlib/patch.py` and
`src/src/romlib/{structures,types}.py` in Lean 4, with theorems settling the
frozen claims about the patch format (blockify / from_blocks, IPS binary and
text serialization, filtering, sentinel handling), string-field writes, and
table/index element access.

Python dictionaries keyed by integers are modelled as association lists
`List (Nat × α)` kept in ascending key order (the canonical form produced by
`sorted(changes.items())`); dict equality is equality of canonical forms.
Python `bytes` values are `List Nat` (each < 256 where the code guarantees
it); Python `str` is `List Char`.
-/

namespace Romlib

/-- Association-list lookup, modelling Python `dict.get` / `dict[k]`
(first matching key wins; canonical lists have unique keys). -/
def alookup {κ α : Type} [DecidableEq κ] (k : κ) : List (κ × α) → Option α
  | [] => none
  | (k', v) :: r => if k' = k then some v else alookup k r

/-- Sorted insert-or-replace, modelling Python `dict[k] = v` on a
canonically ordered association list. -/
def ains {α : Type} (k : Nat) (v : α) : List (Nat × α) → List (Nat × α)
  | [] => [(k, v)]
  | (k', v') :: r =>
    if k < k' then (k, v) :: (k', v') :: r
    else if k = k' then (k, v) :: r
    else (k', v') :: ains k v r

/-- Remove the entry with key `k` (if any), modelling Python `dict.pop(k)`'s
effect on the mapping. -/
def aerase {α : Type} (k : Nat) : List (Nat × α) → List (Nat × α)
  | [] => []
  | (k', v') :: r => if k' = k then r else (k', v') :: aerase k r

/-- A patch's `changes` mapping: byte offset → byte value. -/
abbrev Changes := List (Nat × Nat)

/-- Key-ordering relation for canonical association lists. -/
def keyLT {α : Type} (a b : Nat × α) : Prop := a.1 < b.1

instance {α : Type} : DecidableRel (keyLT (α := α)) := fun a b =>
  inferInstanceAs (Decidable (a.1 < b.1))

/-- `SortedKeys m`: the association list is in canonical (strictly
ascending-key) form. -/
abbrev SortedKeys {α : Type} (m : List (Nat × α)) : Prop := m.Pairwise keyLT

/-- Loop body of `Patch._blockify` (patch.py lines 46-61): `start`/`block`
accumulate the current run, `offset` is the previous key; an entry at
`offset + 1` extends the run, anything else flushes the run and starts a
new one.  The final flush (lines 62-63) is the `[]` case. -/
def blockgo (start : Nat) (block : List Nat) (offset : Nat) :
    Changes → List (Nat × List Nat)
  | [] => [(start, block)]
  | (o, v) :: rest =>
    if o = offset + 1 then blockgo start (block ++ [v]) o rest
    else (start, block) :: blockgo o [v] o rest

/-- `Patch._blockify` (patch.py lines 32-64): merge adjacent single-byte
changes of a canonically sorted mapping into maximal (start, bytes) runs.
The `merged` dict is built with strictly increasing starts, so its canonical
form is the list in production order. -/
def blockify : Changes → List (Nat × List Nat)
  | [] => []
  | (o, v) :: rest => blockgo o [v] o rest

/-- One run's expansion: entries `start+i ↦ data[i]`, the inner loop of
`Patch.from_blocks` (patch.py lines 70-72).  Keys ascend, so the dict built
by repeated assignment is this list. -/
def expand (start : Nat) : List Nat → Changes
  | [] => []
  | d :: ds => (start, d) :: expand (start + 1) ds

/-- `insRun m o bs`: repeated dict assignment `m[o+n] = bs[n]`, the loop
`for n, b in enumerate(data): changes[offset+n] = b` used by the parsers and
`from_blocks`. -/
def insRun (m : Changes) (o : Nat) : List Nat → Changes
  | [] => m
  | b :: bs => insRun (ains o b m) (o + 1) bs

/-- `Patch.from_blocks` (patch.py lines 66-73): expand every block back to
individual byte changes by repeated dict assignment.  (`Patch(changes)`
copies the dict, a value-level identity here.) -/
def from_blocks (blocks : List (Nat × List Nat)) : Changes :=
  blocks.foldl (fun m p => insRun m p.1 p.2) []

/-- `Patch.filter` (patch.py lines 201-211): keep exactly the entries whose
value differs from the reference image's byte at that offset.  The rom is
modelled as a random-access byte source `Nat → Nat` (`getbyte` = seek+read,
assumed in range). -/
def pfilter (m : Changes) (rom : Nat → Nat) : Changes :=
  m.filter fun p => decide (p.2 ≠ rom p.1)

/-- Blocks-level expansion by concatenation (the mathematical form; equals
`from_blocks` when blocks are separated, proved below). -/
def expandAll (bs : List (Nat × List Nat)) : Changes :=
  (bs.map fun p => expand p.1 p.2).flatten

/-- Separation of serialized blocks: each block ends strictly before the
next begins. -/
def blockSep (a b : Nat × List Nat) : Prop := a.1 + a.2.length < b.1

instance : DecidableRel blockSep := fun a b =>
  inferInstanceAs (Decidable (a.1 + a.2.length < b.1))

theorem expand_snoc (s : Nat) (ds : List Nat) (v : Nat) :
    expand s (ds ++ [v]) = expand s ds ++ [(s + ds.length, v)] := by
  induction ds generalizing s with
  | nil => simp [expand]
  | cons d ds ih =>
    have h2 : s + 1 + ds.length = s + (ds.length + 1) := by omega
    calc expand s ((d :: ds) ++ [v])
        = (s, d) :: expand (s + 1) (ds ++ [v]) := rfl
      _ = (s, d) :: (expand (s + 1) ds ++ [(s + 1 + ds.length, v)]) := by
            rw [ih]
      _ = ((s, d) :: expand (s + 1) ds) ++ [(s + (ds.length + 1), v)] := by
            rw [h2]; simp
      _ = expand s (d :: ds) ++ [(s + (d :: ds).length, v)] := by
            simp [expand]

theorem expand_key_lt {s : Nat} {ds : List Nat} {p : Nat × Nat}
    (hp : p ∈ expand s ds) : p.1 < s + ds.length := by
  induction ds generalizing s with
  | nil => simp [expand] at hp
  | cons d ds ih =>
    simp only [expand, List.mem_cons] at hp
    rcases hp with h | h
    · subst h
      show s < s + (d :: ds).length
      simp only [List.length_cons]
      omega
    · have h2 := ih h
      simp only [List.length_cons]
      omega

theorem expand_key_ge {s : Nat} {ds : List Nat} {p : Nat × Nat}
    (hp : p ∈ expand s ds) : s ≤ p.1 := by
  induction ds generalizing s with
  | nil => simp [expand] at hp
  | cons d ds ih =>
    simp only [expand, List.mem_cons] at hp
    rcases hp with h | h
    · subst h; simp
    · have := ih h; omega

/-- Core expansion lemma for the blockify loop: under its invariants,
expanding the produced blocks recovers the current run followed by the
remaining (sorted, later-keyed) entries. -/
theorem blockgo_expandAll (rest : Changes) :
    ∀ (start : Nat) (block : List Nat) (offset : Nat),
      block ≠ [] → offset + 1 = start + block.length →
      (∀ q ∈ rest, offset < q.1) → SortedKeys rest →
      expandAll (blockgo start block offset rest) =
        expand start block ++ rest := by
  induction rest with
  | nil =>
    intro start block offset _ _ _ _
    simp [blockgo, expandAll]
  | cons p rest ih =>
    intro start block offset hne hlen hall hsort
    obtain ⟨o, v⟩ := p
    have ho : offset < o := hall (o, v) (List.mem_cons_self _ _)
    have hhead : ∀ q ∈ rest, o < q.1 :=
      fun q hq => List.rel_of_pairwise_cons hsort hq
    have htail : SortedKeys rest := hsort.of_cons
    by_cases hadj : o = offset + 1
    · rw [blockgo, if_pos hadj]
      rw [ih start (block ++ [v]) o (by simp)
          (by simp only [List.length_append, List.length_cons,
                List.length_nil]; omega)
          (fun q hq => hhead q hq) htail]
      rw [expand_snoc]
      have : start + block.length = o := by omega
      simp [this]
    · rw [blockgo, if_neg hadj]
      have : expandAll ((start, block) :: blockgo o [v] o rest) =
          expand start block ++ expandAll (blockgo o [v] o rest) := by
        simp [expandAll]
      rw [this, ih o [v] o (by simp) (by simp)
          (fun q hq => hhead q hq) htail]
      simp [expand]

/-- Structural invariants of the blockify loop output: every start is at
least the current run's start, all blocks are nonempty, and blocks are
pairwise separated. -/
theorem blockgo_inv (rest : Changes) :
    ∀ (start : Nat) (block : List Nat) (offset : Nat),
      block ≠ [] → offset + 1 = start + block.length →
      (∀ q ∈ rest, offset < q.1) → SortedKeys rest →
      (∀ p ∈ blockgo start block offset rest, start ≤ p.1 ∧ p.2 ≠ []) ∧
      (blockgo start block offset rest).Pairwise blockSep := by
  induction rest with
  | nil =>
    intro start block offset hne _ _ _
    refine ⟨?_, ?_⟩
    · intro p hp
      simp only [blockgo, List.mem_singleton] at hp
      subst hp; exact ⟨Nat.le_refl _, hne⟩
    · simp [blockgo]
  | cons p rest ih =>
    intro start block offset hne hlen hall hsort
    obtain ⟨o, v⟩ := p
    have ho : offset < o := hall (o, v) (List.mem_cons_self _ _)
    have hhead : ∀ q ∈ rest, o < q.1 :=
      fun q hq => List.rel_of_pairwise_cons hsort hq
    have htail : SortedKeys rest := hsort.of_cons
    by_cases hadj : o = offset + 1
    · rw [blockgo, if_pos hadj]
      exact ih start (block ++ [v]) o (by simp)
        (by simp only [List.length_append, List.length_cons,
              List.length_nil]; omega)
        (fun q hq => hhead q hq) htail
    · rw [blockgo, if_neg hadj]
      obtain ⟨hmem, hpw⟩ := ih o [v] o (by simp) (by simp)
        (fun q hq => hhead q hq) htail
      have hgap : start + block.length < o := by omega
      refine ⟨?_, ?_⟩
      · intro q hq
        rcases List.mem_cons.mp hq with h | h
        · subst h; exact ⟨Nat.le_refl _, hne⟩
        · obtain ⟨h1, h2⟩ := hmem q h
          exact ⟨by omega, h2⟩
      · rw [List.pairwise_cons]
        refine ⟨?_, hpw⟩
        intro q hq
        obtain ⟨h1, _⟩ := hmem q hq
        exact (by omega : start + block.length < q.1)

theorem blockify_expandAll {m : Changes} (hm : SortedKeys m) :
    expandAll (blockify m) = m := by
  cases m with
  | nil => simp [blockify, expandAll]
  | cons p rest =>
    obtain ⟨o, v⟩ := p
    rw [blockify, blockgo_expandAll rest o [v] o (by simp) (by simp)
        (fun q hq => List.rel_of_pairwise_cons hm hq) hm.of_cons]
    simp [expand]

theorem blockify_inv {m : Changes} (hm : SortedKeys m) :
    (∀ p ∈ blockify m, p.2 ≠ []) ∧ (blockify m).Pairwise blockSep := by
  cases m with
  | nil => simp [blockify]
  | cons p rest =>
    obtain ⟨o, v⟩ := p
    obtain ⟨h1, h2⟩ := blockgo_inv rest o [v] o (by simp) (by simp)
      (fun q hq => List.rel_of_pairwise_cons hm hq) hm.of_cons
    exact ⟨fun p hp => (h1 p hp).2, h2⟩

theorem ains_append {α : Type} {m : List (Nat × α)} {k : Nat} {v : α}
    (h : ∀ p ∈ m, p.1 < k) : ains k v m = m ++ [(k, v)] := by
  induction m with
  | nil => rfl
  | cons p r ih =>
    obtain ⟨k', v'⟩ := p
    have hk' : k' < k := h (k', v') (List.mem_cons_self _ _)
    rw [ains, if_neg (by omega), if_neg (by omega),
        ih (fun q hq => h q (List.mem_cons_of_mem _ hq))]
    rfl

theorem insRun_append {o : Nat} (bs : List Nat) :
    ∀ (m : Changes), (∀ p ∈ m, p.1 < o) →
      insRun m o bs = m ++ expand o bs := by
  induction bs generalizing o with
  | nil => intro m _; simp [insRun, expand]
  | cons b bs ih =>
    intro m hm
    rw [insRun, ains_append hm, ih (m ++ [(o, b)]) ?_, expand]
    · simp
    · intro p hp
      rcases List.mem_append.mp hp with h | h
      · exact Nat.lt_of_lt_of_le (hm p h) (Nat.le_succ o)
      · simp only [List.mem_singleton] at h; subst h; simp

/-- `from_blocks` agrees with plain concatenation of expansions when the
blocks are pairwise separated (as `blockify`'s always are). -/
theorem from_blocks_eq_expandAll {bs : List (Nat × List Nat)}
    (hsep : bs.Pairwise blockSep) : from_blocks bs = expandAll bs := by
  suffices h : ∀ (bs : List (Nat × List Nat)) (m : Changes),
      bs.Pairwise blockSep →
      (∀ p ∈ m, ∀ q ∈ bs, p.1 < q.1) →
      bs.foldl (fun m p => insRun m p.1 p.2) m = m ++ expandAll bs by
    have := h bs [] hsep (by intro p hp; simp at hp)
    simpa [from_blocks] using this
  intro bs
  induction bs with
  | nil => intro m _ _; simp [expandAll]
  | cons p rest ih =>
    intro m hpw hlt
    obtain ⟨s, d⟩ := p
    rw [List.pairwise_cons] at hpw
    obtain ⟨hhead, htail⟩ := hpw
    rw [List.foldl_cons]
    have h1 : insRun m s d = m ++ expand s d :=
      insRun_append d m (fun q hq => hlt q hq (s, d) (List.mem_cons_self _ _))
    rw [h1, ih (m ++ expand s d) htail ?_]
    · simp [expandAll]
    · intro q hq r hr
      have h3 : s + d.length < r.1 := hhead r hr
      rcases List.mem_append.mp hq with h | h
      · have h4 : q.1 < s := hlt q h (s, d) (List.mem_cons_self _ _)
        omega
      · have h2 := expand_key_lt h
        omega

theorem alookup_mem {α : Type} {k : Nat} {v : α} {m : List (Nat × α)}
    (h : alookup k m = some v) : (k, v) ∈ m := by
  induction m with
  | nil => simp [alookup] at h
  | cons p r ih =>
    obtain ⟨k', v'⟩ := p
    rw [alookup] at h
    by_cases hk : k' = k
    · rw [if_pos hk] at h
      subst hk
      cases h
      exact List.mem_cons_self _ _
    · rw [if_neg hk] at h
      exact List.mem_cons_of_mem _ (ih h)

theorem alookup_ains_self {α : Type} (k : Nat) (v : α) (m : List (Nat × α)) :
    alookup k (ains k v m) = some v := by
  induction m with
  | nil => simp [ains, alookup]
  | cons p r ih =>
    obtain ⟨k', v'⟩ := p
    rw [ains]
    by_cases h1 : k < k'
    · rw [if_pos h1, alookup, if_pos rfl]
    · rw [if_neg h1]
      by_cases h2 : k = k'
      · rw [if_pos h2, alookup, if_pos rfl]
      · rw [if_neg h2, alookup, if_neg (by omega)]
        exact ih

theorem alookup_ains_ne {α : Type} {k j : Nat} (v : α) (m : List (Nat × α))
    (hne : j ≠ k) : alookup j (ains k v m) = alookup j m := by
  induction m with
  | nil =>
    simp only [ains, alookup]
    rw [if_neg (fun h => hne h.symm)]
  | cons p r ih =>
    obtain ⟨k', v'⟩ := p
    rw [ains]
    by_cases h1 : k < k'
    · rw [if_pos h1, alookup, if_neg (fun h => hne h.symm), alookup]
    · rw [if_neg h1]
      by_cases h2 : k = k'
      · subst h2
        rw [if_pos rfl, alookup, if_neg (fun h => hne h.symm), alookup,
            if_neg (fun h => hne h.symm)]
      · rw [if_neg h2, alookup, alookup]
        by_cases h3 : k' = j
        · rw [if_pos h3, if_pos h3]
        · rw [if_neg h3, if_neg h3]
          exact ih

theorem alookup_aerase_ne {α : Type} {k j : Nat} (m : List (Nat × α))
    (hne : j ≠ k) : alookup j (aerase k m) = alookup j m := by
  induction m with
  | nil => rfl
  | cons p r ih =>
    obtain ⟨k', v'⟩ := p
    rw [aerase]
    by_cases h1 : k' = k
    · subst h1
      rw [if_pos rfl, alookup, if_neg (fun h => hne h.symm)]
    · rw [if_neg h1, alookup, alookup]
      by_cases h2 : k' = j
      · rw [if_pos h2, if_pos h2]
      · rw [if_neg h2, if_neg h2]
        exact ih

theorem alookup_none_of_all_gt {α : Type} {k : Nat} {m : List (Nat × α)}
    (h : ∀ p ∈ m, k < p.1) : alookup k m = none := by
  induction m with
  | nil => rfl
  | cons p r ih =>
    obtain ⟨k', v'⟩ := p
    have : k < k' := h (k', v') (List.mem_cons_self _ _)
    rw [alookup, if_neg (by omega)]
    exact ih (fun q hq => h q (List.mem_cons_of_mem _ hq))

theorem alookup_aerase_self {α : Type} {k : Nat} {m : List (Nat × α)}
    (hm : SortedKeys m) : alookup k (aerase k m) = none := by
  induction m with
  | nil => rfl
  | cons p r ih =>
    obtain ⟨k', v'⟩ := p
    rw [aerase]
    by_cases h1 : k' = k
    · subst h1
      rw [if_pos rfl]
      exact alookup_none_of_all_gt
        (fun q hq => List.rel_of_pairwise_cons hm hq)
    · rw [if_neg h1, alookup, if_neg h1]
      exact ih hm.of_cons

/-! ## IPS serialization (`Patch.to_ips` / `to_ipst` / `from_ips` / `from_ipst`) -/

instance {ε α : Type} [DecidableEq ε] [DecidableEq α] :
    DecidableEq (Except ε α) := fun a b =>
  match a, b with
  | .ok x, .ok y =>
    if h : x = y then .isTrue (by rw [h]) else
      .isFalse (fun hc => h (Except.ok.inj hc))
  | .error x, .error y =>
    if h : x = y then .isTrue (by rw [h]) else
      .isFalse (fun hc => h (Except.error.inj hc))
  | .ok _, .error _ => .isFalse (fun hc => Except.noConfusion hc)
  | .error _, .ok _ => .isFalse (fun hc => Except.noConfusion hc)

/-- Errors raised by the patch code.  Each constructor names the Python
exception it models: `PatchFormatError`, `PatchValueError`, and the
uncaught built-in exceptions (`ValueError` from `int()`/`bytes.fromhex`,
`OverflowError` from `int.to_bytes`, `IndexError` from `b""[0]`,
`StopIteration` from `next` on an empty stream). -/
inductive PErr where
  | headerMismatch
  | missingBogoByte
  | formatError (line : Nat)
  | valueOutOfRange (line val : Nat)
  | pyValueError
  | overflowError
  | indexError
  | stopIteration
  | fuelExhausted
  deriving DecidableEq

/-- `_ips_bogo_address = 0x454f46` (patch.py line 7): the offset whose
3-byte big-endian encoding is the ASCII bytes "EOF". -/
def ipsBogoAddr : Nat := 0x454f46

/-- `Patch._ips_sanitize_changes` (patch.py lines 144-167): blockify the
changes; if a block starts at the bogo address, pop it and re-insert it one
byte earlier prefixed with the bogo byte (`bogobyte.to_bytes(1, "big")`
raises `AttributeError` → `PatchValueError` when no bogo byte was given,
`OverflowError` when it is not a byte). -/
def sanitize (m : Changes) (bogobyte : Option Nat) :
    Except PErr (List (Nat × List Nat)) :=
  let blocks := blockify m
  match alookup ipsBogoAddr blocks with
  | none => .ok blocks
  | some data =>
    match bogobyte with
    | none => .error .missingBogoByte
    | some b =>
      if b < 256 then
        .ok (ains (ipsBogoAddr - 1) (b :: data) (aerase ipsBogoAddr blocks))
      else .error .overflowError

/-- Big-endian byte string of fixed width, the value part of Python
`n.to_bytes(w, 'big')`. -/
def beBytes : Nat → Nat → List Nat
  | 0, _ => []
  | w + 1, n => beBytes w (n / 256) ++ [n % 256]

/-- Python `n.to_bytes(w, 'big')`: `OverflowError` (modelled as `none`)
when the value does not fit. -/
def pyToBytes (w n : Nat) : Option (List Nat) :=
  if n < 256 ^ w then some (beBytes w n) else none

/-- Python `int.from_bytes(bs, 'big')` (also `0` for `b""`). -/
def beVal (bs : List Nat) : Nat := bs.foldl (fun a b => a * 256 + b) 0

/-- `"PATCH".encode()` and `codecs.encode("EOF")` as byte lists. -/
def ipsHeaderBytes : List Nat := [80, 65, 84, 67, 72]

def ipsFooterBytes : List Nat := [69, 79, 70]

/-- One record of `Patch.to_ips` (patch.py lines 173-183): RLE form when the
block is longer than 3 bytes and holds a single distinct value
(`len(data) > 3 and len(set(data)) == 1`, the set modelled by `dedup`),
literal form otherwise.  `none` models `OverflowError` from `to_bytes`. -/
def ipsRecord (offset : Nat) (data : List Nat) : Option (List Nat) :=
  if 3 < data.length ∧ data.dedup.length = 1 then
    (pyToBytes 3 offset).bind fun ob =>
      (pyToBytes 2 data.length).map fun lb => ob ++ [0, 0] ++ lb ++ data.take 1
  else
    (pyToBytes 3 offset).bind fun ob =>
      (pyToBytes 2 data.length).map fun lb => ob ++ lb ++ data

/-- Serialize all blocks in ascending offset order (`sorted(blocks.items())`;
the model's block lists are already canonically sorted). -/
def ipsRecords : List (Nat × List Nat) → Option (List Nat)
  | [] => some []
  | (o, d) :: rest =>
    (ipsRecord o d).bind fun r => (ipsRecords rest).map fun rs => r ++ rs

/-- `Patch.to_ips` (patch.py lines 169-184): header, records, footer. -/
def toIps (m : Changes) (bogobyte : Option Nat) : Except PErr (List Nat) :=
  match sanitize m bogobyte with
  | .error e => .error e
  | .ok blocks =>
    match ipsRecords blocks with
    | none => .error .overflowError
    | some rs => .ok (ipsHeaderBytes ++ rs ++ ipsFooterBytes)

/-- `insConst m o n v`: the RLE expansion loop
`for i in range(n): changes[o+i] = v`. -/
def insConst (m : Changes) (o : Nat) : Nat → Nat → Changes
  | 0, _ => m
  | n + 1, v => insConst (ains o v m) (o + 1) n v

/-- Record loop of `Patch.from_ips` (patch.py lines 84-104), fuelled for
termination (each iteration consumes input; fuel = input length suffices).
Reads 3 offset bytes, stops on the literal footer, then reads a 2-byte
size: size > 0 is a literal run, size 0 an RLE record (2-byte run length
plus one value byte; `f.read(1)[0]` on exhausted input raises
`IndexError`). -/
def fromIpsGo : Nat → List Nat → Changes → Except PErr Changes
  | 0, _, _ => .error .fuelExhausted
  | fuel + 1, bs, acc =>
    let data := bs.take 3
    if data = ipsFooterBytes then .ok acc
    else
      let offset := beVal data
      let rest := bs.drop 3
      let size := beVal (rest.take 2)
      let rest := rest.drop 2
      if size > 0 then
        fromIpsGo fuel (rest.drop size) (insRun acc offset (rest.take size))
      else
        let rleSize := beVal (rest.take 2)
        let rest := rest.drop 2
        match rest.take 1 with
        | [] => .error .indexError
        | v :: _ => fromIpsGo fuel (rest.drop 1) (insConst acc offset rleSize v)

/-- `Patch.from_ips` (patch.py lines 75-105): check the 5-byte header, then
loop over records.  (`Patch(changes)` copies the dict; value identity.) -/
def fromIps (bs : List Nat) : Except PErr Changes :=
  if bs.take 5 = ipsHeaderBytes then fromIpsGo (bs.length + 1) (bs.drop 5) []
  else .error .headerMismatch

/-! ## IPST text format

Python strings are `List Char`; a patch file is a list of lines (without
newline terminators, which `print` appends and `rstrip` removes). -/

/-- Python `str` model. -/
abbrev PyStr := List Char

/-- `line.startswith("#")` for a single-character prefix. -/
def pyStartsWith (c : Char) : PyStr → Bool
  | [] => false
  | x :: _ => x = c

/-- `line.rstrip()`: drop trailing whitespace. -/
def pyRstrip (l : PyStr) : PyStr :=
  (l.reverse.dropWhile Char.isWhitespace).reverse

/-- `line.split(sep)` for a one-character separator (never returns `[]`;
`"".split(":") == [""]`). -/
def pySplit (sep : Char) : PyStr → List PyStr
  | [] => [[]]
  | c :: rest =>
    match pySplit sep rest with
    | [] => [[]]
    | h :: t => if c = sep then [] :: h :: t else (c :: h) :: t

/-- Uppercase hex digit of a value < 16, as produced by `"{:X}".format`. -/
def hexDigit (n : Nat) : Char :=
  if n < 10 then Char.ofNat (48 + n) else Char.ofNat (55 + n)

/-- Hex digits of `n` (most significant first), empty for 0; fuelled
structural recursion so that concrete evaluation reduces in the kernel. -/
def toHexAux : Nat → Nat → List Char
  | 0, _ => []
  | _ + 1, 0 => []
  | fuel + 1, n => toHexAux fuel (n / 16) ++ [hexDigit (n % 16)]

/-- Python `"{:0wX}".format(n)`: uppercase hex, zero-padded on the left to
width `w`, never truncated. -/
def pyHex (w n : Nat) : PyStr :=
  let ds := if n = 0 then ['0'] else toHexAux n n
  List.replicate (w - ds.length) '0' ++ ds

/-- Hex digit value; Python `int(_, 16)` accepts both letter cases. -/
def digitValHex (c : Char) : Option Nat :=
  if '0' ≤ c ∧ c ≤ '9' then some (c.toNat - 48)
  else if 'A' ≤ c ∧ c ≤ 'F' then some (c.toNat - 55)
  else if 'a' ≤ c ∧ c ≤ 'f' then some (c.toNat - 87)
  else none

/-- Decimal digit value. -/
def digitValDec (c : Char) : Option Nat :=
  if '0' ≤ c ∧ c ≤ '9' then some (c.toNat - 48) else none

/-- Digit-string parser: `none` models the `ValueError` raised by Python
`int(s, base)` on the digit strings appearing here (the model omits the
sign/whitespace/underscore forms, which never occur in patch files). -/
def parseDigits (base : Nat) (dv : Char → Option Nat) (s : PyStr) :
    Option Nat :=
  match s with
  | [] => none
  | _ => s.foldl (fun acc c => acc.bind fun a => (dv c).map fun d =>
      a * base + d) (some 0)

/-- Python `int(s)` (base 10) on a bare digit string. -/
def parseDec (s : PyStr) : Option Nat := parseDigits 10 digitValDec s

/-- Python `int(s, 16)` on a bare hex-digit string. -/
def parseHex (s : PyStr) : Option Nat := parseDigits 16 digitValHex s

/-- Python `bytes.fromhex`: pairs of hex digits (`none` = `ValueError`;
the model omits the optional inter-pair spaces, never produced here). -/
def bytesFromHex : PyStr → Option (List Nat)
  | [] => some []
  | [_] => none
  | c1 :: c2 :: r =>
    match digitValHex c1, digitValHex c2, bytesFromHex r with
    | some h, some l, some rest => some ((h * 16 + l) :: rest)
    | _, _, _ => none

/-- One record line of `Patch.to_ipst` (patch.py lines 190-198): RLE form
`"{:06X}:{:04X}:{:04X}:{:01X}"` under the same condition as `to_ips`,
literal form `"{:06X}:{:04X}:{}"` with the data as hex pairs otherwise. -/
def ipstRecordLine (offset : Nat) (data : List Nat) : PyStr :=
  if 3 < data.length ∧ data.dedup.length = 1 then
    pyHex 6 offset ++ [':'] ++ pyHex 4 0 ++ [':'] ++ pyHex 4 data.length ++
      [':'] ++ pyHex 1 (data.headD 0)
  else
    pyHex 6 offset ++ [':'] ++ pyHex 4 data.length ++ [':'] ++
      (data.map (pyHex 2)).flatten

/-- `Patch.to_ipst` (patch.py lines 186-199): header line, one line per
block in ascending offset order, footer line. -/
def toIpst (m : Changes) (bogobyte : Option Nat) : Except PErr (List PyStr) :=
  match sanitize m bogobyte with
  | .error e => .error e
  | .ok blocks =>
    .ok ("PATCH".data :: blocks.map (fun p => ipstRecordLine p.1 p.2) ++
      ["EOF".data])

/-- Result of processing one line inside the `from_ipst` loop. -/
inductive LineStep where
  | cont (acc : Changes)
  | stop (acc : Changes)
  | fail (e : PErr)
  deriving DecidableEq

/-- Loop body of `Patch.from_ipst` (patch.py lines 118-140): rstrip; stop on
`EOF`; a 3-part line parses its data as hex pairs but its offset with
base-10 `int()` (evaluated inside the loop, so an empty data field skips
the offset parse); a 4-part line parses all parts as hex and rejects
`value > 0xFF` only inside the `range(rle_size)` loop; anything else is a
`PatchFormatError` carrying the line counter. -/
def ipstLine (ln : Nat) (acc : Changes) (line : PyStr) : LineStep :=
  let l := pyRstrip line
  if l = "EOF".data then .stop acc
  else
    match pySplit ':' l with
    | [o, _sz, dat] =>
      (match bytesFromHex dat with
      | none => .fail .pyValueError
      | some [] => .cont acc
      | some (b :: bs) =>
        match parseDec o with
        | none => .fail .pyValueError
        | some off => .cont (insRun acc off (b :: bs)))
    | [o, sz, rs, v] =>
      (match parseHex o, parseHex sz, parseHex rs, parseHex v with
      | some off, some _, some rsz, some vv =>
        if rsz ≠ 0 ∧ 0xFF < vv then .fail (.valueOutOfRange ln vv)
        else .cont (insConst acc off rsz vv)
      | _, _, _, _ => .fail .pyValueError)
    | _ => .fail (.formatError ln)

/-- The `enumerate(f, 2)` loop of `from_ipst`; falling off the end without
an `EOF` line returns the accumulated changes. -/
def fromIpstGo : List PyStr → Nat → Changes → Except PErr Changes
  | [], _, acc => .ok acc
  | l :: rest, ln, acc =>
    match ipstLine ln acc l with
    | .cont acc' => fromIpstGo rest (ln + 1) acc'
    | .stop acc' => .ok acc'
    | .fail e => .error e

/-- `Patch.from_ipst` (patch.py lines 107-142).  The generator
`(line for line in f if not line or not line.startswith("#"))` keeps empty
lines and drops only nonempty lines starting with `#`; `next` takes the
header (`StopIteration` if there is none), and the loop enumerates the
remaining filtered lines from 2. -/
def fromIpst (lines : List PyStr) : Except PErr Changes :=
  match lines.filter (fun l => l.isEmpty || !(pyStartsWith '#' l)) with
  | [] => .error .stopIteration
  | header :: rest =>
    if pyRstrip header = "PATCH".data then fromIpstGo rest 2 []
    else .error .headerMismatch

/-! ## Helper lemmas for the claim theorems -/

theorem alookup_sep_lt {bs : List (Nat × List Nat)}
    (hsep : bs.Pairwise blockSep) {j k : Nat} {dj dk : List Nat}
    (hj : alookup j bs = some dj) (hk : alookup k bs = some dk)
    (hjk : j < k) : j + dj.length < k := by
  induction bs with
  | nil => simp [alookup] at hj
  | cons p r ih =>
    obtain ⟨k0, v0⟩ := p
    rw [alookup] at hj hk
    by_cases h0 : k0 = j
    · rw [if_pos h0] at hj
      cases hj
      subst h0
      rw [if_neg (by omega)] at hk
      exact List.rel_of_pairwise_cons hsep (alookup_mem hk)
    · rw [if_neg h0] at hj
      by_cases h1 : k0 = k
      · have h2 : k0 + v0.length < j :=
          List.rel_of_pairwise_cons hsep (alookup_mem hj)
        omega
      · rw [if_neg h1] at hk
        exact ih hsep.of_cons hj hk

/-- If some block of `blockify m` starts at an address `a`, no block starts
at `a - 1`: consecutive block starts are separated by more than the first
block's (nonempty) length. -/
theorem blockify_no_adjacent_start {m : Changes} (hm : SortedKeys m)
    {a : Nat} {data : List Nat} (ha : 0 < a)
    (h : alookup a (blockify m) = some data) :
    alookup (a - 1) (blockify m) = none := by
  obtain ⟨hne, hsep⟩ := blockify_inv hm
  cases hd : alookup (a - 1) (blockify m) with
  | none => rfl
  | some d2 =>
    exfalso
    have hlt := alookup_sep_lt hsep hd h (by omega)
    have hne2 : d2 ≠ [] := hne (a - 1, d2) (alookup_mem hd)
    have hlen : d2.length = 0 := by omega
    exact hne2 (List.length_eq_zero.mp hlen)

theorem blockify_sorted {m : Changes} (hm : SortedKeys m) :
    SortedKeys (blockify m) :=
  (blockify_inv hm).2.imp fun h => by
    unfold keyLT
    unfold blockSep at h
    omega

/-- `len(set(data)) == 1` (modelled via `dedup`) says exactly that all bytes
of a nonempty block equal its first byte. -/
theorem dedup_length_one_iff (d : List Nat) (hne : d ≠ []) :
    d.dedup.length = 1 ↔ ∀ b ∈ d, b = d.headD 0 := by
  constructor
  · intro h
    obtain ⟨a, ha⟩ := List.length_eq_one.mp h
    intro b hb
    have hb2 : b = a := by
      have := List.mem_dedup.mpr hb
      rw [ha] at this
      simpa using this
    obtain ⟨x, xs, rfl⟩ := List.exists_cons_of_ne_nil hne
    have hx : x = a := by
      have := List.mem_dedup.mpr (List.mem_cons_self x xs)
      rw [ha] at this
      simpa using this
    rw [hb2, hx]
    rfl
  · intro h
    obtain ⟨x, xs, rfl⟩ := List.exists_cons_of_ne_nil hne
    have hall : ∀ b ∈ xs, b = x := by
      intro b hb
      have := h b (List.mem_cons_of_mem _ hb)
      simpa using this
    clear h hne
    induction xs with
    | nil => rfl
    | cons y ys ih =>
      have hy : y = x := hall y (List.mem_cons_self _ _)
      subst hy
      rw [List.dedup_cons_of_mem (List.mem_cons_self _ _)]
      exact ih fun b hb => hall b (List.mem_cons_of_mem _ hb)

/-! ## Claim theorems -/

/-- C8: converting a canonical changes mapping to blocks and back is the
identity: `Patch.from_blocks(Patch._blockify(M)).changes == M` — `_blockify`
partitions the mapping into maximal consecutive runs and `from_blocks`
re-expands them, losing and inventing nothing. -/
theorem c8_from_blocks_blockify (m : Changes) (hm : SortedKeys m) :
    from_blocks (blockify m) = m := by
  rw [from_blocks_eq_expandAll (blockify_inv hm).2, blockify_expandAll hm]

theorem c8_witness :
    SortedKeys [(10, 0xAA), (11, 0xBB), (13, 0xCC)] ∧
    from_blocks (blockify [(10, 0xAA), (11, 0xBB), (13, 0xCC)]) =
      [(10, 0xAA), (11, 0xBB), (13, 0xCC)] :=
  ⟨by decide, c8_from_blocks_blockify _ (by decide)⟩

/-- C3: `Patch.filter` is idempotent for a fixed reference image and removes
exactly the entries whose value equals the rom byte at that offset, keeping
all others unchanged (in particular the result is a sublist of the input). -/
theorem c3_filter_idempotent_exact (m : Changes) (rom : Nat → Nat) :
    pfilter (pfilter m rom) rom = pfilter m rom ∧
    (∀ o v : Nat, (o, v) ∈ pfilter m rom ↔ ((o, v) ∈ m ∧ v ≠ rom o)) ∧
    (pfilter m rom).Sublist m := by
  refine ⟨?_, ?_, List.filter_sublist m⟩
  · unfold pfilter
    rw [List.filter_filter]
    simp
  · intro o v
    simp [pfilter, List.mem_filter]

/-- C2: when a change block begins exactly at the reserved sentinel address
0x454F46, serialization with a supplied bogo byte `b` replaces it by a block
at 0x454F45 whose bytes are `b` followed by the original block's bytes,
leaving every other block untouched (no block can pre-exist at 0x454F45);
with no bogo byte, `_ips_sanitize_changes` — and hence both `to_ips` and
`to_ipst`, before writing anything — fails with the MissingBogoByte
`PatchValueError`. -/
theorem c2_sentinel_handling (m : Changes) (hm : SortedKeys m)
    (data : List Nat) (b : Nat) (hb : b < 256)
    (hblk : alookup ipsBogoAddr (blockify m) = some data) :
    alookup (ipsBogoAddr - 1) (blockify m) = none ∧
    sanitize m (some b) =
      .ok (ains (ipsBogoAddr - 1) (b :: data)
        (aerase ipsBogoAddr (blockify m))) ∧
    alookup (ipsBogoAddr - 1)
      (ains (ipsBogoAddr - 1) (b :: data)
        (aerase ipsBogoAddr (blockify m))) = some (b :: data) ∧
    alookup ipsBogoAddr
      (ains (ipsBogoAddr - 1) (b :: data)
        (aerase ipsBogoAddr (blockify m))) = none ∧
    (∀ s, s ≠ ipsBogoAddr → s ≠ ipsBogoAddr - 1 →
      alookup s (ains (ipsBogoAddr - 1) (b :: data)
        (aerase ipsBogoAddr (blockify m))) = alookup s (blockify m)) ∧
    sanitize m none = .error .missingBogoByte ∧
    toIps m none = .error .missingBogoByte ∧
    toIpst m none = .error .missingBogoByte := by
  have hbogo : 0 < ipsBogoAddr := by decide
  have hsane : sanitize m none = .error .missingBogoByte := by
    simp only [sanitize]
    rw [hblk]
  refine ⟨blockify_no_adjacent_start hm hbogo hblk, ?_, ?_, ?_, ?_, hsane,
    ?_, ?_⟩
  · simp only [sanitize]
    rw [hblk]
    simp [hb]
  · exact alookup_ains_self _ _ _
  · rw [alookup_ains_ne _ _ (by decide : ipsBogoAddr ≠ ipsBogoAddr - 1)]
    exact alookup_aerase_self (blockify_sorted hm)
  · intro s hs1 hs2
    rw [alookup_ains_ne _ _ hs2]
    exact alookup_aerase_ne _ hs1
  · unfold toIps
    rw [hsane]
  · unfold toIpst
    rw [hsane]

theorem c2_witness :
    Romlib.SortedKeys [(0x454F46, 9)] ∧ (0 : Nat) < 256 ∧
    alookup ipsBogoAddr (blockify [(0x454F46, 9)]) = some [9] ∧
    sanitize [(0x454F46, 9)] (some 0) = .ok [(0x454F45, [0, 9])] ∧
    sanitize [(0x454F46, 9)] none = .error .missingBogoByte :=
  ⟨by decide, by decide, by decide,
    (c2_sentinel_handling [(0x454F46, 9)] (by decide) [9] 0 (by decide)
      (by decide)).2.1,
    (c2_sentinel_handling [(0x454F46, 9)] (by decide) [9] 0 (by decide)
      (by decide)).2.2.2.2.2.1⟩

/-- C1: the text-format round trip fails.  `to_ipst` writes record offsets
in hex (`"{:06X}"`), but `from_ipst` parses 3-part record offsets with
base-10 `int()`; already for the one-entry mapping `{10: 0}` the writer
emits offset field `"00000A"` and the reader raises an uncaught
`ValueError`.  The binary round trip at the same mapping succeeds. -/
theorem c1_text_roundtrip_failure :
    toIpst [(10, 0)] none =
      .ok ["PATCH".data, "00000A:0001:00".data, "EOF".data] ∧
    fromIpst ["PATCH".data, "00000A:0001:00".data, "EOF".data] =
      .error .pyValueError ∧
    toIps [(10, 0)] none =
      .ok [80, 65, 84, 67, 72, 0, 0, 10, 0, 1, 0, 69, 79, 70] ∧
    fromIps [80, 65, 84, 67, 72, 0, 0, 10, 0, 1, 0, 69, 79, 70] =
      .ok [(10, 0)] :=
  ⟨by decide, by decide, by decide, by decide⟩

/-- Spec §6 record layouts, written from the spec's words for comparison
with the writers: RLE binary record = 3-byte big-endian offset, 2 zero
bytes, 2-byte big-endian run length, 1 value byte. -/
def specRleBytes (o : Nat) (d : List Nat) : List Nat :=
  beBytes 3 o ++ [0, 0] ++ beBytes 2 d.length ++ [d.headD 0]

/-- Spec §6 literal binary record = 3-byte offset, 2-byte length, raw
bytes. -/
def specLitBytes (o : Nat) (d : List Nat) : List Nat :=
  beBytes 3 o ++ beBytes 2 d.length ++ d

/-- Spec §6 RLE text record `XXXXXX:0000:RRRR:V`. -/
def specRleLine (o : Nat) (d : List Nat) : PyStr :=
  pyHex 6 o ++ [':'] ++ pyHex 4 0 ++ [':'] ++ pyHex 4 d.length ++ [':'] ++
    pyHex 1 (d.headD 0)

/-- Spec §6 literal text record `XXXXXX:LLLL:HEXDATA`. -/
def specLitLine (o : Nat) (d : List Nat) : PyStr :=
  pyHex 6 o ++ [':'] ++ pyHex 4 d.length ++ [':'] ++
    (d.map (pyHex 2)).flatten

/-- C4: in both the binary and the text writer, a block longer than 3 bytes
whose bytes are all identical is emitted as the spec's RLE record, and any
other block — in particular a block of exactly 3 identical bytes — as the
spec's literal record; the RLE/literal boundary for uniform blocks is at
length > 3. -/
theorem c4_rle_threshold (o : Nat) (d : List Nat) (ho : o < 2 ^ 24)
    (hl : d.length < 2 ^ 16) (hne : d ≠ []) :
    ((3 < d.length ∧ ∀ b ∈ d, b = d.headD 0) →
      ipsRecord o d = some (specRleBytes o d) ∧
      ipstRecordLine o d = specRleLine o d) ∧
    (¬(3 < d.length ∧ ∀ b ∈ d, b = d.headD 0) →
      ipsRecord o d = some (specLitBytes o d) ∧
      ipstRecordLine o d = specLitLine o d) := by
  have hcond : (3 < d.length ∧ d.dedup.length = 1) ↔
      (3 < d.length ∧ ∀ b ∈ d, b = d.headD 0) :=
    and_congr_right fun _ => dedup_length_one_iff d hne
  have hob : pyToBytes 3 o = some (beBytes 3 o) := by
    unfold pyToBytes
    rw [if_pos (by norm_num at ho ⊢; omega)]
  have hlb : pyToBytes 2 d.length = some (beBytes 2 d.length) := by
    unfold pyToBytes
    rw [if_pos (by norm_num at hl ⊢; omega)]
  have htake : d.take 1 = [d.headD 0] := by
    obtain ⟨x, xs, rfl⟩ := List.exists_cons_of_ne_nil hne
    rfl
  constructor
  · intro h
    have hc := hcond.mpr h
    refine ⟨?_, ?_⟩
    · unfold ipsRecord
      rw [if_pos hc, hob, hlb]
      unfold specRleBytes
      rw [htake]
      rfl
    · unfold ipstRecordLine specRleLine
      rw [if_pos hc]
  · intro h
    have hc : ¬(3 < d.length ∧ d.dedup.length = 1) :=
      fun hcontra => h (hcond.mp hcontra)
    refine ⟨?_, ?_⟩
    · unfold ipsRecord
      rw [if_neg hc, hob, hlb]
      rfl
    · unfold ipstRecordLine specLitLine
      rw [if_neg hc]

theorem c4_witness :
    ((0 : Nat) < 2 ^ 24 ∧ ([5, 5, 5, 5] : List Nat).length < 2 ^ 16 ∧
      ([5, 5, 5, 5] : List Nat) ≠ [] ∧
      ipsRecord 0 [5, 5, 5, 5] = some (specRleBytes 0 [5, 5, 5, 5]) ∧
      ipstRecordLine 0 [5, 5, 5, 5] = specRleLine 0 [5, 5, 5, 5]) ∧
    (ipsRecord 0 [5, 5, 5] = some (specLitBytes 0 [5, 5, 5]) ∧
      ipstRecordLine 0 [5, 5, 5] = specLitLine 0 [5, 5, 5]) :=
  ⟨⟨by decide, by decide, by decide,
    ((c4_rle_threshold 0 [5, 5, 5, 5] (by decide) (by decide) (by decide)).1
      (by decide)).1,
    ((c4_rle_threshold 0 [5, 5, 5, 5] (by decide) (by decide) (by decide)).1
      (by decide)).2⟩,
   ⟨((c4_rle_threshold 0 [5, 5, 5] (by decide) (by decide) (by decide)).2
      (by decide)).1,
    ((c4_rle_threshold 0 [5, 5, 5] (by decide) (by decide) (by decide)).2
      (by decide)).2⟩⟩

/-- C5 counterexample: an RLE record line whose value field 0x1FF exceeds
one byte but whose run-length field is 0000 is accepted silently — the
range check sits inside the `for i in range(rle_size)` loop, which never
runs — contradicting the claim that every such line fails with
ValueOutOfRange. -/
theorem c5_counterexample :
    fromIpst ["PATCH".data, "000001:0000:0000:1FF".data, "EOF".data] =
      .ok [] ∧
    (pySplit ':' "000001:0000:0000:1FF".data).length = 4 ∧
    parseHex "1FF".data = some 0x1FF ∧ (0xFF : Nat) < 0x1FF :=
  ⟨by decide, by decide, by decide, by decide⟩

/-- C5 (amended): a 4-part RLE record line with nonzero run length and
value > 0xFF makes the loop body fail with `PatchValueError`
(ValueOutOfRange) carrying the loop's line counter and the value; with run
length 0 the oversized value is accepted silently; a non-EOF line whose
colon-split is neither 3 nor 4 parts fails with `PatchFormatError` carrying
the line counter.  (The counter is the line's ordinal in the
comment-stripped stream, which equals the file line number when no comment
lines precede.) -/
theorem c5_amended (ln : Nat) (acc : Changes) (line : PyStr) :
    (∀ o sz rs v off szv rsz vv,
      pySplit ':' (pyRstrip line) = [o, sz, rs, v] →
      parseHex o = some off → parseHex sz = some szv →
      parseHex rs = some rsz → parseHex v = some vv →
      (rsz ≠ 0 → 0xFF < vv →
        ipstLine ln acc line = .fail (.valueOutOfRange ln vv)) ∧
      (rsz = 0 → ipstLine ln acc line = .cont acc)) ∧
    (pyRstrip line ≠ "EOF".data →
      (pySplit ':' (pyRstrip line)).length ≠ 3 →
      (pySplit ':' (pyRstrip line)).length ≠ 4 →
      ipstLine ln acc line = .fail (.formatError ln)) := by
  constructor
  · intro o sz rs v off szv rsz vv hsplit hpo hpsz hprs hpv
    have hEOF : pyRstrip line ≠ "EOF".data := by
      intro h
      have h1 : (pySplit ':' (pyRstrip line)).length = 4 := by
        rw [hsplit]; rfl
      rw [h] at h1
      have h2 : (pySplit ':' ("EOF".data)).length = 1 := by decide
      omega
    constructor
    · intro hrs hv
      simp only [ipstLine]
      rw [if_neg hEOF, hsplit]
      simp [hpo, hpsz, hprs, hpv, hrs, hv]
    · intro hrs
      subst hrs
      simp only [ipstLine]
      rw [if_neg hEOF, hsplit]
      simp [hpo, hpsz, hprs, hpv, insConst]
  · intro hEOF h3 h4
    simp only [ipstLine]
    rw [if_neg hEOF]
    cases hsp : pySplit ':' (pyRstrip line) with
    | nil => rfl
    | cons a t1 =>
      cases t1 with
      | nil => rfl
      | cons b t2 =>
        cases t2 with
        | nil => rfl
        | cons c t3 =>
          cases t3 with
          | nil => exact absurd (by rw [hsp]; rfl) h3
          | cons d t4 =>
            cases t4 with
            | nil => exact absurd (by rw [hsp]; rfl) h4
            | cons e t5 => rfl

theorem c5_witness :
    ipstLine 2 [] "000001:0000:0002:1FF".data =
      .fail (.valueOutOfRange 2 0x1FF) ∧
    ipstLine 3 [] "00:11".data = .fail (.formatError 3) :=
  ⟨((c5_amended 2 [] "000001:0000:0002:1FF".data).1
      "000001".data "0000".data "0002".data "1FF".data 1 0 2 0x1FF
      (by decide) (by decide) (by decide) (by decide) (by decide)).1
      (by decide) (by decide),
   (c5_amended 3 [] "00:11".data).2 (by decide) (by decide) (by decide)⟩

/-! ## String-typed field writes (`Field._set_str`, types.py lines 101-114) -/

/-- Errors of a string-field write: decode/encode failures model the ASCII
codec's `UnicodeDecodeError`/`UnicodeEncodeError`; `valueTooLong` models the
failure of assigning a wrong-length byte string to the field's view. -/
inductive StrErr where
  | decodeError
  | encodeError
  | valueTooLong
  deriving DecidableEq

/-- `str.encode('ascii')`. -/
def asciiEncode (s : PyStr) : Option (List Nat) :=
  if s.all (fun c => c.toNat < 128) then some (s.map Char.toNat) else none

/-- `bytes.decode('ascii')`. -/
def asciiDecode (bs : List Nat) : Option PyStr :=
  if bs.all (· < 128) then some (bs.map Char.ofNat) else none

/-- `Field._set_str` (types.py lines 104-114) over the field's current view
bytes `cur`: skip when the new value decodes identically; otherwise write
the encoding into a `BytesIO` seeded with the current bytes (overwriting a
prefix and keeping the old suffix, extending the buffer if longer) and
assign the result to `bitview.bytes`.

The final assignment's target, `BitArrayView.bytes`'s setter, lives in
romlib/io.py which is not under src/.  Modelled from the spec:
writing a byte string to a fixed view must not alter bits outside the
addressed range (§4.1) and an oversized value fails with a ValueError-family
error (§4.2/§7), so the setter accepts exactly length-preserving
assignments. -/
def set_str (cur : List Nat) (value : PyStr) : Except StrErr (List Nat) :=
  match asciiDecode cur with
  | none => .error .decodeError
  | some curs =>
    if value = curs then .ok cur
    else
      match asciiEncode value with
      | none => .error .encodeError
      | some ev =>
        let content := ev ++ cur.drop ev.length
        if content.length = cur.length then .ok content
        else .error .valueTooLong

/-- C6 counterexample: a 4-byte ASCII field holding `"ABCD"` set to `"XY"`
stores `b"XYCD"` — the encoded value followed by the field's old trailing
bytes — not the claim's space-padded `b"XY  "`. -/
theorem c6_counterexample :
    set_str [65, 66, 67, 68] "XY".data = .ok [88, 89, 67, 68] ∧
    ([88, 89, 67, 68] : List Nat) ≠ [88, 89, 32, 32] :=
  ⟨by decide, by decide⟩

/-- C6 (amended): writing a string field whose current bytes decode to
`curs`: a value equal to `curs` leaves the bytes untouched (the write is
skipped); a value whose encoding fits is stored as the encoding followed by
the field's prior bytes beyond that length — which coincides with space
padding exactly when the retained suffix is spaces, as in the spec's
`"AB  "` example; an encoding longer than the field fails with a size error
and changes nothing. -/
theorem c6_amended (cur : List Nat) (value : PyStr) (curs : PyStr)
    (hd : asciiDecode cur = some curs) :
    (value = curs → set_str cur value = .ok cur) ∧
    (∀ ev, value ≠ curs → asciiEncode value = some ev →
      ev.length ≤ cur.length →
      set_str cur value = .ok (ev ++ cur.drop ev.length)) ∧
    (∀ ev, value ≠ curs → asciiEncode value = some ev →
      cur.length < ev.length →
      set_str cur value = .error .valueTooLong) := by
  refine ⟨?_, ?_, ?_⟩
  · intro hv
    simp only [set_str, hd]
    rw [if_pos hv]
  · intro ev hv he hle
    simp only [set_str, hd, he]
    rw [if_neg hv,
      if_pos (by simp only [List.length_append, List.length_drop]; omega)]
  · intro ev hv he hgt
    simp only [set_str, hd, he]
    rw [if_neg hv,
      if_neg (by simp only [List.length_append, List.length_drop]; omega)]

theorem c6_witness :
    asciiDecode [65, 66, 32, 32] = some "AB  ".data ∧
    set_str [65, 66, 32, 32] "ABC".data = .ok [65, 66, 67, 32] ∧
    set_str [65, 66, 32, 32] "ABCDE".data = .error .valueTooLong :=
  ⟨by decide,
   (c6_amended [65, 66, 32, 32] "ABC".data "AB  ".data (by decide)).2.1
     [65, 66, 67] (by decide) (by decide) (by decide),
   (c6_amended [65, 66, 32, 32] "ABCDE".data "AB  ".data (by decide)).2.2
     [65, 66, 67, 68, 69] (by decide) (by decide) (by decide)⟩

/-! ## Table / Index (`structures.py` lines 212-307) -/

/-- Errors of table element access: `IndexError` and the
`ValueError("Couldn't figure out item size")`. -/
inductive TErr where
  | indexOutOfRange
  | itemSizeUnresolved
  deriving DecidableEq

/-- A table's index: the arithmetic `Index(offset, count, stride)` class
(structures.py lines 283-298) or a plain Python list of offsets. -/
inductive TIdx where
  | arith (offset : Int) (count : Nat) (stride : Int)
  | explicit (offsets : List Int)
  deriving DecidableEq

/-- `Table` (structures.py lines 212-243): element type name, index,
optional explicit size, and units (the `Unit` enum value the offsets/sizes
are multiplied by; the underlying view is addressed in bits). -/
structure TableM where
  typename : String
  index : TIdx
  size : Option Int
  units : Int
  deriving DecidableEq

/-- `len(index)`: `Index.__len__` returns `count`; a list its length. -/
def idxLen : TIdx → Nat
  | .arith _ c _ => c
  | .explicit l => l.length

/-- `Table.__len__` (structures.py lines 279-280): `len(self.index)`. -/
def tlen (t : TableM) : Nat := idxLen t.index

/-- Python truthiness of `self.size`: `None` and `0` are both falsy. -/
def truthyOpt : Option Int → Bool
  | none => false
  | some n => decide (n ≠ 0)

/-- `Table._isz_bits` (structures.py lines 233-243).  The registry
`Structure.registry` is modelled as a name → `size()`-in-bits mapping,
since only the registered structure's size matters here. -/
def isz_bits (reg : List (String × Int)) (t : TableM) : Except TErr Int :=
  if truthyOpt t.size then .ok (t.size.getD 0 * t.units)
  else
    match alookup t.typename reg with
    | some ssz => .ok ssz
    | none =>
      match t.index with
      | .arith _ _ stride => .ok (stride * t.units)
      | .explicit _ => .error .itemSizeUnresolved

/-- `Index.__getitem__` (structures.py lines 292-298) and Python list
indexing for explicit-list indexes: the arithmetic index rejects only
`i >= count` and returns `offset + i*stride` otherwise (negatives
included); a list wraps negative indexes and raises `IndexError` outside
`[-len, len)`. -/
def idxGet (idx : TIdx) (i : Int) : Except TErr Int :=
  match idx with
  | .arith off c stride =>
    if (c : Int) ≤ i then .error .indexOutOfRange else .ok (off + i * stride)
  | .explicit l =>
    if 0 ≤ i then
      match l.get? i.toNat with
      | some v => .ok v
      | none => .error .indexOutOfRange
    else
      if 0 ≤ (l.length : Int) + i then
        match l.get? ((l.length : Int) + i).toNat with
        | some v => .ok v
        | none => .error .indexOutOfRange
      else .error .indexOutOfRange

/-- `Table.__getitem__` + `Table._subview` (structures.py lines 245-262)
resolved down to the element's bit range `[index[i]*units,
index[i]*units + _isz_bits)`; constructing the element from that sub-view
happens in romlib/io.py, outside src/. -/
def tableGet (reg : List (String × Int)) (t : TableM) (i : Int) :
    Except TErr (Int × Int) :=
  if (tlen t : Int) ≤ i then .error .indexOutOfRange
  else
    match idxGet t.index i with
    | .error e => .error e
    | .ok off =>
      match isz_bits reg t with
      | .error e => .error e
      | .ok isz => .ok (off * t.units, off * t.units + isz)

/-- Spec-side size resolution, written from the spec's words for comparison
with `_isz_bits`: "(explicit size) > (registered structure's size) >
(index stride), in that priority" — an explicitly supplied size wins
whenever it is present. -/
def isz_spec (reg : List (String × Int)) (t : TableM) : Except TErr Int :=
  match t.size with
  | some s => .ok (s * t.units)
  | none =>
    match alookup t.typename reg with
    | some ssz => .ok ssz
    | none =>
      match t.index with
      | .arith _ _ stride => .ok (stride * t.units)
      | .explicit _ => .error .itemSizeUnresolved

/-- C7 counterexample: with an explicitly supplied size of 0 and a
registered structure of size 24 bits, `if self.size:` treats the explicit
size as absent (Python truthiness) and returns the structure's size 24,
while the claimed priority ("explicitly supplied size if present") yields
0. -/
theorem c7_counterexample :
    isz_bits [("foo", 24)] (TableM.mk "foo" (.arith 0 3 2) (some 0) 8) =
      .ok 24 ∧
    isz_spec [("foo", 24)] (TableM.mk "foo" (.arith 0 3 2) (some 0) 8) =
      .ok 0 ∧
    (Except.ok 24 : Except TErr Int) ≠ .ok 0 :=
  ⟨by decide, by decide, by decide⟩

/-- C7 (amended): the table's length is the length of its index, and the
element size is resolved by the fixed priority: a NONZERO explicitly
supplied size (unit-scaled); else the registered structure's size when the
element type names a registered structure; else the index's stride
(unit-scaled) when the index is arithmetic; if none applies, `_isz_bits`
and element access fail rather than guess.  (An explicit size of 0 is
treated as absent by `if self.size:`.) -/
theorem c7_amended (reg : List (String × Int)) (t : TableM) :
    tlen t = idxLen t.index ∧
    (∀ s, t.size = some s → s ≠ 0 → isz_bits reg t = .ok (s * t.units)) ∧
    (∀ z, truthyOpt t.size = false → alookup t.typename reg = some z →
      isz_bits reg t = .ok z) ∧
    (∀ off c st, truthyOpt t.size = false →
      alookup t.typename reg = none → t.index = .arith off c st →
      isz_bits reg t = .ok (st * t.units)) ∧
    (∀ l, truthyOpt t.size = false → alookup t.typename reg = none →
      t.index = .explicit l →
      isz_bits reg t = .error .itemSizeUnresolved ∧
      ∀ i : Int, 0 ≤ i → i < (l.length : Int) →
        tableGet reg t i = .error .itemSizeUnresolved) := by
  refine ⟨rfl, ?_, ?_, ?_, ?_⟩
  · intro s hs hsn
    unfold isz_bits
    rw [hs]
    simp [truthyOpt, hsn]
  · intro z htr hreg
    unfold isz_bits
    simp [htr, hreg]
  · intro off c st htr hreg hidx
    unfold isz_bits
    simp [htr, hreg, hidx]
  · intro l htr hreg hidx
    have hisz : isz_bits reg t = .error .itemSizeUnresolved := by
      unfold isz_bits
      simp [htr, hreg, hidx]
    refine ⟨hisz, ?_⟩
    intro i h0 hlen
    have htl : tlen t = l.length := by
      unfold tlen
      rw [hidx]
      rfl
    have hnlt : ¬ ((tlen t : Int) ≤ i) := by rw [htl]; omega
    have hv : i.toNat < l.length := by omega
    cases hget : l.get? i.toNat with
    | none => exact absurd (List.get?_eq_none.mp hget) (by omega)
    | some v =>
      simp only [tableGet, hidx, idxGet, hisz, hget]
      rw [if_neg hnlt, if_pos h0]

theorem c7_witness :
    ((TableM.mk "bar" (.arith 0 5 3) none 8).size = none ∧
      tlen (TableM.mk "bar" (.arith 0 5 3) none 8) = 5 ∧
      isz_bits [] (TableM.mk "bar" (.arith 0 5 3) none 8) = .ok 24) ∧
    (isz_bits [] (TableM.mk "bar" (.explicit [0, 4]) none 8) =
        .error .itemSizeUnresolved ∧
      tableGet [] (TableM.mk "bar" (.explicit [0, 4]) none 8) 1 =
        .error .itemSizeUnresolved) :=
  ⟨⟨rfl, (c7_amended [] (TableM.mk "bar" (.arith 0 5 3) none 8)).1,
    (c7_amended [] (TableM.mk "bar" (.arith 0 5 3) none 8)).2.2.2.1
      0 5 3 (by decide) (by decide) rfl⟩,
   ⟨((c7_amended [] (TableM.mk "bar" (.explicit [0, 4]) none 8)).2.2.2.2
      [0, 4] (by decide) (by decide) rfl).1,
    ((c7_amended [] (TableM.mk "bar" (.explicit [0, 4]) none 8)).2.2.2.2
      [0, 4] (by decide) (by decide) rfl).2 1 (by decide) (by decide)⟩⟩

/-- C9 counterexample: a table over an explicit offset list of length 2
accessed at index -3 raises `IndexError` (from the Python list), refuting
the claim that no error is raised for negative indexes. -/
theorem c9_counterexample :
    tableGet [] (TableM.mk "uint" (.explicit [0, 8]) (some 1) 8) (-3) =
      .error .indexOutOfRange ∧ (-3 : Int) < 0 :=
  ⟨by decide, by decide⟩

/-- C9 (amended): element access rejects every `i ≥ len` with `IndexError`;
a negative `i` on an arithmetic index is resolved without error at offset
`offset + i*stride` (a position before the table's first element when the
stride is positive); a negative `i` on an explicit list index follows
Python list semantics — it wraps to `index[len+i]` for `-len ≤ i < 0` and
raises `IndexError` for `i < -len`. -/
theorem c9_amended (reg : List (String × Int)) (t : TableM) :
    (∀ i : Int, (tlen t : Int) ≤ i →
      tableGet reg t i = .error .indexOutOfRange) ∧
    (∀ off c st (i : Int) z, t.index = .arith off c st → i < 0 →
      isz_bits reg t = .ok z →
      tableGet reg t i =
        .ok ((off + i * st) * t.units, (off + i * st) * t.units + z)) ∧
    (∀ l (i : Int) v z, t.index = .explicit l → i < 0 →
      0 ≤ (l.length : Int) + i →
      l.get? ((l.length : Int) + i).toNat = some v →
      isz_bits reg t = .ok z →
      tableGet reg t i = .ok (v * t.units, v * t.units + z)) ∧
    (∀ l (i : Int), t.index = .explicit l → i < -(l.length : Int) →
      tableGet reg t i = .error .indexOutOfRange) := by
  refine ⟨?_, ?_, ?_, ?_⟩
  · intro i h
    unfold tableGet
    rw [if_pos h]
  · intro off c st i z hidx hineg hisz
    have hnlt : ¬ ((tlen t : Int) ≤ i) := by omega
    have hc : ¬ (((c : Nat) : Int) ≤ i) := by omega
    simp only [tableGet, hidx, idxGet, hisz]
    rw [if_neg hnlt, if_neg hc]
  · intro l i v z hidx hineg hinr hget hisz
    have hnlt : ¬ ((tlen t : Int) ≤ i) := by omega
    have hn0 : ¬ (0 ≤ i) := by omega
    simp only [tableGet, hidx, idxGet, hisz, hget]
    rw [if_neg hnlt, if_neg hn0, if_pos hinr]
  · intro l i hidx hlt
    have hnlt : ¬ ((tlen t : Int) ≤ i) := by omega
    have hn0 : ¬ (0 ≤ i) := by omega
    have hn1 : ¬ (0 ≤ (l.length : Int) + i) := by omega
    simp only [tableGet, hidx, idxGet]
    rw [if_neg hnlt, if_neg hn0, if_neg hn1]

theorem c9_witness :
    (TableM.mk "u" (.arith 100 4 8) (some 1) 8).index = .arith 100 4 8 ∧
    (-1 : Int) < 0 ∧
    isz_bits [] (TableM.mk "u" (.arith 100 4 8) (some 1) 8) = .ok 8 ∧
    tableGet [] (TableM.mk "u" (.arith 100 4 8) (some 1) 8) (-1) =
      .ok (736, 744) :=
  ⟨rfl, by decide, by decide,
   (c9_amended [] (TableM.mk "u" (.arith 100 4 8) (some 1) 8)).2.1
     100 4 8 (-1) 8 rfl (by decide) (by decide)⟩

/-! ## `Patch.__init__` aliasing (patch.py lines 19-30) -/

/-- A heap of dictionaries: Python dict objects are cells in a store,
referenced by index, so aliasing and mutation are explicit. -/
abbrev Store := List Changes

/-- Dereference a dict (out-of-range reads never occur in the theorems). -/
def storeRead (σ : Store) (r : Nat) : Changes := (σ.get? r).getD []

/-- In-place mutation of the dict in cell `r`. -/
def storeWrite (σ : Store) (r : Nat) (v : Changes) : Store := σ.set r v

/-- `Patch.__init__(data, rom)` (patch.py lines 19-30):
`self.changes = data.copy()` allocates a fresh dict holding a copy of
`data`'s entries; `if rom: self.filter(rom)` then replaces the contents
with the filtered copy.  Returns the new store and the new dict's
reference. -/
def patchInit (σ : Store) (d : Nat) (rom : Option (Nat → Nat)) :
    Store × Nat :=
  let copied := storeRead σ d
  let changes :=
    match rom with
    | none => copied
    | some r => pfilter copied r
  (σ ++ [changes], σ.length)

/-- C10: constructing a Patch from a dictionary copies it: the new
reference is distinct, the source dict is untouched, its contents equal the
(possibly rom-filtered) copy, and mutating either dict afterwards never
changes the other. -/
theorem c10_init_copies (σ : Store) (d : Nat) (hd : d < σ.length)
    (rom : Option (Nat → Nat)) :
    (patchInit σ d rom).2 ≠ d ∧
    storeRead (patchInit σ d rom).1 d = storeRead σ d ∧
    storeRead (patchInit σ d rom).1 (patchInit σ d rom).2 =
      (match rom with
       | none => storeRead σ d
       | some r => pfilter (storeRead σ d) r) ∧
    (∀ v, storeRead
        (storeWrite (patchInit σ d rom).1 (patchInit σ d rom).2 v) d =
      storeRead σ d) ∧
    (∀ v, storeRead (storeWrite (patchInit σ d rom).1 d v)
        (patchInit σ d rom).2 =
      storeRead (patchInit σ d rom).1 (patchInit σ d rom).2) := by
  have hp2 : (patchInit σ d rom).2 = σ.length := rfl
  have hne : (patchInit σ d rom).2 ≠ d := by omega
  have hr1 : ∀ c : Changes, storeRead (σ ++ [c]) d = storeRead σ d := by
    intro c
    unfold storeRead
    rw [List.get?_append hd]
  have hr2 : ∀ c : Changes, storeRead (σ ++ [c]) σ.length = c := by
    intro c
    unfold storeRead
    rw [List.get?_append_right (Nat.le_refl _)]
    simp
  refine ⟨hne, ?_, ?_, ?_, ?_⟩
  · cases rom with
    | none => exact hr1 _
    | some r => exact hr1 _
  · cases rom with
    | none => exact hr2 _
    | some r => exact hr2 _
  · intro v
    unfold storeWrite
    rw [hp2]
    unfold storeRead
    rw [List.get?_set_ne _ _ (by omega)]
    cases rom with
    | none => exact hr1 _
    | some r => exact hr1 _
  · intro v
    unfold storeWrite
    unfold storeRead
    rw [hp2, List.get?_set_ne _ _ (by omega)]

theorem c10_witness :
    (0 : Nat) < ([[(0, 1)]] : Store).length ∧
    (patchInit [[(0, 1)]] 0 none).2 ≠ 0 ∧
    storeRead (patchInit [[(0, 1)]] 0 none).1 0 = [(0, 1)] :=
  ⟨by decide, (c10_init_copies [[(0, 1)]] 0 (by decide) none).1,
   (c10_init_copies [[(0, 1)]] 0 (by decide) none).2.1⟩

end Romlib

